import Mathlib

/-
Verification of the FVG (Fair Value Gap) detection core:
bar aggregation (resample_timeframes.py), the 3-bar gap scan and
multi-timeframe orchestration (fvg_detector.py), and the session /
part-of-day / price-distance enrichment
(enrich_with_sessions_and_events.py, fvg_detector.py).

Modelling conventions.
Timestamps are natural numbers counting native time units (minutes) from the
UTC epoch; pandas tz conversion never changes the underlying instant, only
its display, so a timestamp is a single number here.  Prices and volumes are
integers (the source stores IEEE doubles; every comparison and subtraction
the claims speak about is exact, so an exact numeric type is used).
A pandas DataFrame row becomes a Bar record; the DatetimeIndex and the
column-schema checks of the source are modelled explicitly where a claim
needs them (detect_fvg_checked).
-/

namespace NQForecast

/-- One OHLCV bar: a row of the DataFrame together with its index timestamp. -/
structure Bar where
  t : Nat
  open_ : Int
  high : Int
  low : Int
  close : Int
  volume : Int
deriving DecidableEq

/-- Direction literal of fvg_detector.py: bull or bear. -/
inductive Direction where
  | bull
  | bear
deriving DecidableEq

/-- Fair Value Gap record, mirroring the FVG dataclass of fvg_detector.py.
The enrichment fields default exactly as in the dataclass. -/
structure FVG where
  id : Nat
  direction : Direction
  tf : String
  created_at : Nat
  start_index : Nat
  end_index : Nat
  top : Int
  bottom : Int
  width : Int
  is_filled : Bool := false
  filled_at : Option Nat := none
  session : Option String := none
  part_of_day : Option String := none
  distance_to_price : Option Int := none
deriving DecidableEq

/-- Row access highs[i] / lows[i] / idx[i] of the scan; the loop below only
uses indices below the length, so the default bar is never read. -/
def nthBar (bars : List Bar) (i : Nat) : Bar :=
  bars.getD i ⟨0, 0, 0, 0, 0, 0⟩

/-- Body of one iteration of the detect_fvg loop at index i: the bullish test
lows[i] > highs[i-2] is run first, then the bearish test
highs[i] < lows[i-2]; each candidate is kept only when
width = top - bottom is at least min_width.  The per-scan id counter of the
source increments by exactly one at every kept candidate, so it is assigned
afterwards by position (assign_ids); candidates carry the placeholder id 0
here. -/
def fvg_candidates_at (bars : List Bar) (tf : String) (min_width : Int)
    (i : Nat) : List FVG :=
  (if (nthBar bars i).low > (nthBar bars (i - 2)).high ∧
      min_width ≤ (nthBar bars i).low - (nthBar bars (i - 2)).high then
    [{ id := 0, direction := Direction.bull, tf := tf
       created_at := (nthBar bars i).t
       start_index := i - 2, end_index := i
       top := (nthBar bars i).low
       bottom := (nthBar bars (i - 2)).high
       width := (nthBar bars i).low - (nthBar bars (i - 2)).high }]
   else []) ++
  (if (nthBar bars i).high < (nthBar bars (i - 2)).low ∧
      min_width ≤ (nthBar bars (i - 2)).low - (nthBar bars i).high then
    [{ id := 0, direction := Direction.bear, tf := tf
       created_at := (nthBar bars i).t
       start_index := i - 2, end_index := i
       top := (nthBar bars (i - 2)).low
       bottom := (nthBar bars i).high
       width := (nthBar bars (i - 2)).low - (nthBar bars i).high }]
   else [])

/-- All kept candidates of the scan, in confirmation order: the loop runs
i = 2, ..., len(df) - 1 and appends the candidates of each i in turn. -/
def detect_fvg_candidates (bars : List Bar) (tf : String)
    (min_width : Int) : List FVG :=
  (List.range' 2 (bars.length - 2)).flatMap (fvg_candidates_at bars tf min_width)

/-- Sequential id assignment: the n-th kept candidate (0-based) receives
id = first + n, exactly what threading next_id through the loop produces. -/
def assign_ids : Nat → List FVG → List FVG
  | _, [] => []
  | n, g :: gs => { g with id := n } :: assign_ids (n + 1) gs

/-- detect_fvg of fvg_detector.py: the 3-candle scan over one timeframe,
ids assigned sequentially from 1 in confirmation order. -/
def detect_fvg (bars : List Bar) (tf : String) (min_width : Int) : List FVG :=
  assign_ids 1 (detect_fvg_candidates bars tf min_width)

/-- Required OHLC columns checked by _validate_ohlcv. -/
def required_ohlc : List String := ["open", "high", "low", "close"]

/-- _validate_ohlcv of fvg_detector.py: raises TypeError when the index is
not a DatetimeIndex, KeyError when an OHLC column is missing.  The frame
schema is passed explicitly (index kind and column names). -/
def _validate_ohlcv (is_datetime_index : Bool) (columns : List String) :
    Except String Unit :=
  if is_datetime_index = false then
    Except.error "DataFrame index must be a DatetimeIndex"
  else if (required_ohlc.filter (fun c => !(columns.contains c))).isEmpty then
    Except.ok ()
  else
    Except.error "Missing required OHLC columns"

/-- detect_fvg together with its schema validation, as the source runs it:
_validate_ohlcv first, then the scan. -/
def detect_fvg_checked (is_datetime_index : Bool) (columns : List String)
    (bars : List Bar) (tf : String) (min_width : Int) :
    Except String (List FVG) :=
  match _validate_ohlcv is_datetime_index columns with
  | Except.error e => Except.error e
  | Except.ok _ => Except.ok (detect_fvg bars tf min_width)

/-- Right edge of the resample bucket containing instant t, for bucket
duration d: pandas resample with closed="right", label="right" puts t into
the interval (r - d, r] whose right edge r is the least multiple of d that
is at least t (bucket edges are anchored at the day origin, time 0 here). -/
def bucket (d : Nat) (t : Nat) : Nat :=
  d * ((t + d - 1) / d)

/-- A single source bar lifted to its bucket: the row it contributes before
any later bar of the same bucket is merged in. -/
def bucketBar (d : Nat) (b : Bar) : Bar :=
  ⟨bucket d b.t, b.open_, b.high, b.low, b.close, b.volume⟩

/-- Merge an earlier source bar b into the aggregate a of the later bars of
the same bucket, following the agg dict of resample_ohlcv:
open = first, high = max, low = min, close = last, volume = sum. -/
def mergeBar (b a : Bar) : Bar :=
  ⟨a.t, b.open_, max b.high a.high, min b.low a.low, a.close,
   b.volume + a.volume⟩

/-- One step of grouping, consuming bars right to left: a bar either joins
the bucket of the current first output row or opens a new bucket row. -/
def resample_step (d : Nat) (b : Bar) (acc : List Bar) : List Bar :=
  match acc with
  | [] => [bucketBar d b]
  | a :: rest =>
    if bucket d b.t = a.t then mergeBar b a :: rest
    else bucketBar d b :: a :: rest

/-- resample_ohlcv of resample_timeframes.py restricted to the OHLCV
columns: rows are grouped by their right-closed, right-labeled bucket edge
and aggregated with open = first, high = max, low = min, close = last,
volume = sum; buckets receiving no source row produce no output row (they
are NaN rows dropped by dropna).  On the ascending indexes pandas requires,
equal-bucket rows are consecutive, so grouping is a single fold. -/
def resample_ohlcv (bars : List Bar) (d : Nat) : List Bar :=
  bars.foldr (resample_step d) []

/-- The aggregation dict of resample_ohlcv applied to the rows of one bucket
labeled r, given as first row b and remaining rows rest:
open of the first row, running max of high, running min of low, close of the
last row, sum of volume. -/
def aggBar (r : Nat) (b : Bar) (rest : List Bar) : Bar :=
  { t := r
    open_ := b.open_
    high := rest.foldl (fun acc x => max acc x.high) b.high
    low := rest.foldl (fun acc x => min acc x.low) b.low
    close := (rest.getLast?.getD b).close
    volume := rest.foldl (fun acc x => acc + x.volume) b.volume }

/-- Ordering of the merged frame produced by fvgs_to_frame: ascending by the
id column, which set_index("id").sort_index() sorts on. -/
def idLE (a b : FVG) : Prop := a.id ≤ b.id

instance : DecidableRel idLE := fun a b => Nat.decLe a.id b.id

instance : IsTotal FVG idLE := ⟨fun a b => Nat.le_total a.id b.id⟩

instance : IsTrans FVG idLE := ⟨fun _ _ _ => Nat.le_trans⟩

/-- fvgs_to_frame of fvg_detector.py: the gap records become rows indexed by
their id column, sorted ascending on it (rows with equal ids all stay; the
relative order of equal ids is not part of any claim here). -/
def fvgs_to_frame (fvgs : List FVG) : List FVG :=
  List.insertionSort idLE fvgs

/-- Timeframe label: timeframes are identified by their duration in native
(minute) units; the label n corresponds to the source string "nm". -/
def tf_label (tf : Nat) : String := toString tf ++ "m"

/-- Per-timeframe bar sequence of detect_fvg_for_timeframes: the base frame
passes through unchanged for the native label "1m", every other label is
resampled. -/
def tf_frame (base : List Bar) (tf : Nat) : List Bar :=
  if tf = 1 then base else resample_ohlcv base tf

/-- detect_fvg_for_timeframes of fvg_detector.py: run the scan per timeframe
in the given order, concatenate all gap lists, and build the merged frame
with fvgs_to_frame. -/
def detect_fvg_for_timeframes (base : List Bar) (timeframes : List Nat)
    (min_width : Int) : List FVG :=
  fvgs_to_frame (timeframes.flatMap (fun tf =>
    detect_fvg (tf_frame base tf) (tf_label tf) min_width))

/-- The _distance row function of enrich_fvgs_with_time_and_price:
bull rows measure last_price - ref with ref = top when last_price >= top
and ref = bottom otherwise; bear rows measure ref - last_price with
ref = bottom when last_price <= bottom and ref = top otherwise. -/
def _distance (direction : Direction) (top bottom last_price : Int) : Int :=
  match direction with
  | Direction.bull => last_price - (if last_price ≥ top then top else bottom)
  | Direction.bear => (if last_price ≤ bottom then bottom else top) - last_price

/-- A session window of enrich_with_sessions_and_events.py: label with local
start and end times of day, in minutes after local midnight. -/
structure SessionWindow where
  label : String
  start : Nat
  end_ : Nat
deriving DecidableEq

/-- Membership test of _label_sessions: windows with start <= end contain
the half-open local range [start, end); windows with start > end wrap past
midnight and match times at or after start or strictly before end. -/
def in_window (w : SessionWindow) (t : Nat) : Bool :=
  if w.start ≤ w.end_ then decide (w.start ≤ t) && decide (t < w.end_)
  else decide (t ≥ w.start) || decide (t < w.end_)

/-- label_for of _label_sessions: the first matching window wins, the fixed
fallback label "Off" is used when no window matches. -/
def label_for (windows : List SessionWindow) (t : Nat) : String :=
  match windows with
  | [] => "Off"
  | w :: ws => if in_window w t then w.label else label_for ws t

/-- DEFAULT_SESSION_WINDOWS of enrich_with_sessions_and_events.py, local
times rendered in minutes: Asia 20:00-08:00 (wrapping), London 03:00-11:30,
NY 09:30-16:00. -/
def DEFAULT_SESSION_WINDOWS : List SessionWindow :=
  [⟨"Asia", 1200, 480⟩, ⟨"London", 180, 690⟩, ⟨"NY", 570, 960⟩]

/-- _classify_part_of_day of fvg_detector.py, on the hour in UTC. -/
def _classify_part_of_day (hour_utc : Nat) : String :=
  if 6 ≤ hour_utc ∧ hour_utc < 12 then "morning"
  else if 12 ≤ hour_utc ∧ hour_utc < 18 then "noon"
  else "evening"

/-- Hour-of-day in UTC of a timestamp counted in minutes since the UTC
epoch; tz_convert("UTC") recovers the instant itself, whatever display zone
the index carried, so this is a function of the instant alone. -/
def hour_utc_of (t : Nat) : Nat := t / 60 % 24

/-- The part_of_day column of enrich_fvgs_with_time_and_price: the source
computes hour_utc from the index converted to UTC and classifies it; the tz
argument of the enricher plays no role in this column. -/
def part_of_day_of_bar (tz : String) (t : Nat) : String :=
  _classify_part_of_day (hour_utc_of t)

/-- Confirmation order of the scan: ascending confirming index, the bullish
candidate before the bearish one at the same index. -/
def fvg_ord (a b : FVG) : Prop :=
  a.end_index < b.end_index ∨
    (a.end_index = b.end_index ∧ a.direction = Direction.bull ∧
      b.direction = Direction.bear)

/-- Timestamps strictly ascending, the sequence invariant of valid input. -/
def ascending (bars : List Bar) : Prop :=
  List.Pairwise (fun a b => a.t < b.t) bars

/-- Full functional description of detect_fvg at min_width 0, as claim C2
states it: ids sequential from 1 in list order; every emitted gap comes from
a satisfied 3-bar test with the stated zone bounds, anchor and offsets;
every satisfied test emits a gap; and the list is in confirmation order. -/
def detect_fvg_ok (bars : List Bar) (tf : String) : Prop :=
  (∀ k, ∀ h : k < (detect_fvg bars tf 0).length,
    ((detect_fvg bars tf 0).get ⟨k, h⟩).id = k + 1)
  ∧ (∀ g ∈ detect_fvg bars tf 0,
      2 ≤ g.end_index ∧ g.end_index < bars.length ∧
      g.start_index = g.end_index - 2 ∧ g.tf = tf ∧
      g.created_at = (nthBar bars g.end_index).t ∧
      ((g.direction = Direction.bull ∧
        (nthBar bars (g.end_index - 2)).high < (nthBar bars g.end_index).low ∧
        g.top = (nthBar bars g.end_index).low ∧
        g.bottom = (nthBar bars (g.end_index - 2)).high) ∨
       (g.direction = Direction.bear ∧
        (nthBar bars g.end_index).high < (nthBar bars (g.end_index - 2)).low ∧
        g.top = (nthBar bars (g.end_index - 2)).low ∧
        g.bottom = (nthBar bars g.end_index).high)))
  ∧ (∀ i, 2 ≤ i → i < bars.length →
      ((nthBar bars (i - 2)).high < (nthBar bars i).low →
        ∃ g ∈ detect_fvg bars tf 0,
          g.direction = Direction.bull ∧ g.end_index = i) ∧
      ((nthBar bars i).high < (nthBar bars (i - 2)).low →
        ∃ g ∈ detect_fvg bars tf 0,
          g.direction = Direction.bear ∧ g.end_index = i))
  ∧ List.Pairwise fvg_ord (detect_fvg bars tf 0)

/-- Per-bucket description of resample_ohlcv, as claim C3 states it: every
source bar sits in the right-closed bucket it is labeled with; a bucket
whose source-row set is empty contributes no output row; a bucket holding
rows b :: rest contributes exactly one output row, the aggregate
open = first, high = max, low = min, close = last, volume = sum. -/
def resample_ok (bars : List Bar) (d : Nat) : Prop :=
  (∀ b ∈ bars, b.t ≤ bucket d b.t ∧ bucket d b.t < b.t + d)
  ∧ ∀ r : Nat,
      (bars.filter (fun b => bucket d b.t = r) = [] →
        ∀ o ∈ resample_ohlcv bars d, o.t ≠ r) ∧
      (∀ b rest, bars.filter (fun b => bucket d b.t = r) = b :: rest →
        (resample_ohlcv bars d).countP (fun o => o.t = r) = 1 ∧
        aggBar r b rest ∈ resample_ohlcv bars d)

/-- Six rising one-minute bars for the C1 counterexample: every window of
the 1m series and of its 2m aggregation confirms a bullish gap, so both
timeframes contribute, each with local ids starting at 1. -/
def barsC1 : List Bar :=
  [⟨0, 0, 1, 0, 0, 1⟩, ⟨1, 10, 11, 10, 10, 1⟩, ⟨2, 20, 21, 20, 20, 1⟩,
   ⟨3, 30, 31, 30, 30, 1⟩, ⟨4, 40, 41, 40, 40, 1⟩, ⟨5, 50, 51, 50, 50, 1⟩]

/-- The seven-bar fixture of tests/test_fvg_detector_sanity.py: one bullish
gap at index 2 and one bearish gap at index 5. -/
def barsC2 : List Bar :=
  [⟨0, 100, 100, 99, 101, 10⟩, ⟨1, 101, 103, 100, 102, 12⟩,
   ⟨2, 105, 107, 106, 106, 14⟩, ⟨3, 200, 205, 200, 202, 20⟩,
   ⟨4, 201, 203, 199, 200, 18⟩, ⟨5, 198, 194, 193, 195, 16⟩,
   ⟨6, 197, 198, 195, 196, 15⟩]

/-- The six-minute-bar fixture of tests/test_data_layer_sanity.py. -/
def barsC3 : List Bar :=
  [⟨0, 16000, 16002, 15998, 16001, 100⟩, ⟨1, 16001, 16003, 15999, 16002, 120⟩,
   ⟨2, 16002, 16005, 16000, 16004, 90⟩, ⟨3, 16005, 16006, 16002, 16004, 150⟩,
   ⟨4, 16003, 16005, 16001, 16004, 110⟩, ⟨5, 16004, 16007, 16003, 16006, 130⟩]

/-- Three bars confirming one bullish gap of width 2, used with
min_width 1. -/
def barsC4 : List Bar :=
  [⟨0, 0, 0, -1, 0, 1⟩, ⟨1, 0, 1, 0, 0, 1⟩, ⟨2, 3, 4, 2, 3, 1⟩]

/-- Three bars already at 2-minute granularity: timestamps 0, 2, 4. -/
def barsC5 : List Bar :=
  [⟨0, 1, 2, 0, 1, 5⟩, ⟨2, 1, 3, 1, 2, 6⟩, ⟨4, 2, 4, 1, 3, 7⟩]

/-- Three bars confirming one bullish gap with top 2 and bottom 0. -/
def barsC7 : List Bar :=
  [⟨0, 0, 0, -1, 0, 1⟩, ⟨1, 0, 1, 0, 0, 1⟩, ⟨2, 3, 3, 2, 3, 1⟩]

/-- A concrete bullish gap record, as detect_fvg emits on barsC7. -/
def gC6 : FVG :=
  { id := 1, direction := Direction.bull, tf := "1m", created_at := 2
    start_index := 0, end_index := 2, top := 2, bottom := 0, width := 2 }

theorem assign_ids_length (n : Nat) (cs : List FVG) :
    (assign_ids n cs).length = cs.length := by
  induction cs generalizing n with
  | nil => rfl
  | cons c cs ih => simp [assign_ids, ih]

theorem assign_ids_getElem? (cs : List FVG) :
    ∀ n k, (assign_ids n cs)[k]? =
      cs[k]?.map (fun c : FVG => { c with id := n + k }) := by
  induction cs with
  | nil => intro n k; simp [assign_ids]
  | cons c cs ih =>
    intro n k
    cases k with
    | zero => simp [assign_ids]
    | succ k =>
      have h1 : (assign_ids n (c :: cs))[k + 1]? =
          (assign_ids (n + 1) cs)[k]? := by
        show ({ c with id := n } :: assign_ids (n + 1) cs)[k + 1]? = _
        exact List.getElem?_cons_succ
      have h2 : (c :: cs)[k + 1]? = cs[k]? := List.getElem?_cons_succ
      rw [h1, ih (n + 1) k, h2]
      have harith : n + 1 + k = n + (k + 1) := by omega
      rw [harith]

theorem of_mem_assign_ids {g : FVG} :
    ∀ {n : Nat} {cs : List FVG}, g ∈ assign_ids n cs →
    ∃ c ∈ cs, n ≤ g.id ∧ g.direction = c.direction ∧ g.tf = c.tf ∧
      g.created_at = c.created_at ∧ g.start_index = c.start_index ∧
      g.end_index = c.end_index ∧ g.top = c.top ∧ g.bottom = c.bottom ∧
      g.width = c.width := by
  intro n cs
  induction cs generalizing n with
  | nil => intro h; simp [assign_ids] at h
  | cons c cs ih =>
    intro h
    rcases List.mem_cons.mp h with h | h
    · subst h
      exact ⟨c, List.mem_cons_self c cs, Nat.le_refl n, rfl, rfl, rfl, rfl,
        rfl, rfl, rfl, rfl⟩
    · obtain ⟨c', hc', hle, hrest⟩ := ih h
      exact ⟨c', List.mem_cons_of_mem c hc', Nat.le_of_succ_le hle, hrest⟩

theorem mem_assign_ids_of_mem :
    ∀ (cs : List FVG) (c : FVG), c ∈ cs → ∀ n,
      ∃ g ∈ assign_ids n cs,
        g.direction = c.direction ∧ g.end_index = c.end_index := by
  intro cs
  induction cs with
  | nil => intro c h; cases h
  | cons c' cs ih =>
    intro c h n
    rcases List.mem_cons.mp h with h' | h'
    · subst h'
      exact ⟨{ c with id := n }, List.mem_cons_self _ _, rfl, rfl⟩
    · obtain ⟨g, hg, hd, he⟩ := ih c h' (n + 1)
      exact ⟨g, List.mem_cons_of_mem _ hg, hd, he⟩

theorem detect_fvg_id_get (bars : List Bar) (tf : String) (mw : Int) :
    ∀ k, ∀ h : k < (detect_fvg bars tf mw).length,
      ((detect_fvg bars tf mw).get ⟨k, h⟩).id = k + 1 := by
  intro k h
  have hk : k < (detect_fvg_candidates bars tf mw).length := by
    have h' : k < (assign_ids 1 (detect_fvg_candidates bars tf mw)).length := h
    rwa [assign_ids_length] at h'
  have h3 := assign_ids_getElem? (detect_fvg_candidates bars tf mw) 1 k
  rw [List.getElem?_eq_getElem hk] at h3
  simp only [Option.map_some'] at h3
  have h4 : (assign_ids 1 (detect_fvg_candidates bars tf mw))[k]? =
      some ((detect_fvg bars tf mw).get ⟨k, h⟩) := by
    have h5 : k < (assign_ids 1 (detect_fvg_candidates bars tf mw)).length := h
    rw [List.getElem?_eq_getElem h5]
    rfl
  rw [h4] at h3
  have h6 := Option.some.inj h3
  have h7 : ((detect_fvg bars tf mw).get ⟨k, h⟩).id = 1 + k := by rw [h6]
  omega

theorem of_mem_candidates_at {bars : List Bar} {tf : String} {mw : Int}
    {i : Nat} {g : FVG} (h : g ∈ fvg_candidates_at bars tf mw i) :
    g.id = 0 ∧ g.tf = tf ∧ g.end_index = i ∧ g.start_index = i - 2 ∧
    g.created_at = (nthBar bars i).t ∧ g.width = g.top - g.bottom ∧
    mw ≤ g.width ∧ g.bottom < g.top ∧
    ((g.direction = Direction.bull ∧
      (nthBar bars (i - 2)).high < (nthBar bars i).low ∧
      g.top = (nthBar bars i).low ∧
      g.bottom = (nthBar bars (i - 2)).high) ∨
     (g.direction = Direction.bear ∧
      (nthBar bars i).high < (nthBar bars (i - 2)).low ∧
      g.top = (nthBar bars (i - 2)).low ∧
      g.bottom = (nthBar bars i).high)) := by
  unfold fvg_candidates_at at h
  rcases List.mem_append.mp h with h | h
  · revert h
    split_ifs with hc
    · intro h
      rw [List.mem_singleton] at h
      subst h
      exact ⟨rfl, rfl, rfl, rfl, rfl, rfl, hc.2, hc.1,
        Or.inl ⟨rfl, hc.1, rfl, rfl⟩⟩
    · intro h; exact absurd h (List.not_mem_nil g)
  · revert h
    split_ifs with hc
    · intro h
      rw [List.mem_singleton] at h
      subst h
      exact ⟨rfl, rfl, rfl, rfl, rfl, rfl, hc.2, hc.1,
        Or.inr ⟨rfl, hc.1, rfl, rfl⟩⟩
    · intro h; exact absurd h (List.not_mem_nil g)

theorem bull_mem_candidates_at {bars : List Bar} {i : Nat} (tf : String)
    (hc : (nthBar bars (i - 2)).high < (nthBar bars i).low) :
    ∃ g ∈ fvg_candidates_at bars tf 0 i,
      g.direction = Direction.bull ∧ g.end_index = i := by
  have hw : (0 : Int) ≤ (nthBar bars i).low - (nthBar bars (i - 2)).high := by
    omega
  refine ⟨{ id := 0, direction := Direction.bull, tf := tf
            created_at := (nthBar bars i).t
            start_index := i - 2, end_index := i
            top := (nthBar bars i).low
            bottom := (nthBar bars (i - 2)).high
            width := (nthBar bars i).low - (nthBar bars (i - 2)).high },
    ?_, rfl, rfl⟩
  unfold fvg_candidates_at
  refine List.mem_append_left _ ?_
  rw [if_pos ⟨hc, hw⟩]
  exact List.mem_singleton_self _

theorem bear_mem_candidates_at {bars : List Bar} {i : Nat} (tf : String)
    (hc : (nthBar bars i).high < (nthBar bars (i - 2)).low) :
    ∃ g ∈ fvg_candidates_at bars tf 0 i,
      g.direction = Direction.bear ∧ g.end_index = i := by
  have hw : (0 : Int) ≤ (nthBar bars (i - 2)).low - (nthBar bars i).high := by
    omega
  refine ⟨{ id := 0, direction := Direction.bear, tf := tf
            created_at := (nthBar bars i).t
            start_index := i - 2, end_index := i
            top := (nthBar bars (i - 2)).low
            bottom := (nthBar bars i).high
            width := (nthBar bars (i - 2)).low - (nthBar bars i).high },
    ?_, rfl, rfl⟩
  unfold fvg_candidates_at
  refine List.mem_append_right _ ?_
  rw [if_pos ⟨hc, hw⟩]
  exact List.mem_singleton_self _

theorem pairwise_ord_candidates (bars : List Bar) (tf : String) (mw : Int) :
    List.Pairwise fvg_ord (detect_fvg_candidates bars tf mw) := by
  have key : ∀ is : List Nat, List.Pairwise (· < ·) is →
      List.Pairwise fvg_ord (is.flatMap (fvg_candidates_at bars tf mw)) := by
    intro is
    induction is with
    | nil => intro _; simp
    | cons i is ih =>
      intro hp
      rw [List.flatMap_cons, List.pairwise_append]
      refine ⟨?_, ih hp.of_cons, ?_⟩
      · unfold fvg_candidates_at
        split_ifs <;> simp [fvg_ord, List.pairwise_cons]
      · intro a ha b hb
        rcases List.mem_flatMap.mp hb with ⟨j, hj, hbj⟩
        have hij : i < j := (List.pairwise_cons.mp hp).1 j hj
        have ha' := of_mem_candidates_at ha
        have hb' := of_mem_candidates_at hbj
        exact Or.inl (by rw [ha'.2.2.1, hb'.2.2.1]; exact hij)
  exact key _ (List.pairwise_lt_range' 2 (bars.length - 2))

theorem pairwise_ord_assign_ids :
    ∀ (n : Nat) (cs : List FVG), List.Pairwise fvg_ord cs →
      List.Pairwise fvg_ord (assign_ids n cs) := by
  intro n cs
  induction cs generalizing n with
  | nil => intro _; simp [assign_ids]
  | cons c cs ih =>
    intro hp
    show List.Pairwise fvg_ord ({ c with id := n } :: assign_ids (n + 1) cs)
    rw [List.pairwise_cons]
    constructor
    · intro g hg
      obtain ⟨c', hc', _, hdir, _, _, _, hend, _⟩ := of_mem_assign_ids hg
      have h1 := (List.pairwise_cons.mp hp).1 c' hc'
      unfold fvg_ord at h1 ⊢
      rcases h1 with h | ⟨he, hb1, hb2⟩
      · exact Or.inl (by rw [hend]; exact h)
      · exact Or.inr ⟨by rw [hend]; exact he, hb1, by rw [hdir]; exact hb2⟩
    · exact ih (n + 1) hp.of_cons

theorem bucket_edge {d : Nat} (hd : 0 < d) (t : Nat) :
    t ≤ bucket d t ∧ bucket d t < t + d := by
  unfold bucket
  have h1 := Nat.div_add_mod (t + d - 1) d
  have h2 : (t + d - 1) % d < d := Nat.mod_lt _ hd
  omega

theorem bucket_mono (d : Nat) {t t' : Nat} (h : t ≤ t') :
    bucket d t ≤ bucket d t' :=
  Nat.mul_le_mul_left _ (Nat.div_le_div_right (by omega))

theorem bucket_of_dvd {d t : Nat} (hd : 0 < d) (hdvd : d ∣ t) :
    bucket d t = t := by
  obtain ⟨m, rfl⟩ := hdvd
  unfold bucket
  have h1 : d * m + d - 1 = d * m + (d - 1) := by omega
  rw [h1, Nat.mul_add_div hd, Nat.div_eq_of_lt (by omega)]
  simp

theorem resample_cons (d : Nat) (b : Bar) (l : List Bar) :
    resample_ohlcv (b :: l) d = resample_step d b (resample_ohlcv l d) := rfl

theorem resample_head_t (d : Nat) (b : Bar) (l : List Bar) :
    ∃ a rest, resample_ohlcv (b :: l) d = a :: rest ∧ a.t = bucket d b.t := by
  rw [resample_cons]
  cases hr : resample_ohlcv l d with
  | nil => exact ⟨bucketBar d b, [], rfl, rfl⟩
  | cons a rest =>
    simp only [resample_step]
    split_ifs with hb
    · exact ⟨mergeBar b a, rest, rfl, hb.symm⟩
    · exact ⟨bucketBar d b, a :: rest, rfl, rfl⟩

theorem mem_resample_bucket (d : Nat) :
    ∀ (l : List Bar), ∀ o ∈ resample_ohlcv l d, ∃ b ∈ l, o.t = bucket d b.t := by
  intro l
  induction l with
  | nil => intro o ho; simp [resample_ohlcv] at ho
  | cons b l ih =>
    intro o ho
    rw [resample_cons] at ho
    cases hr : resample_ohlcv l d with
    | nil =>
      rw [hr] at ho
      simp [resample_step] at ho
      subst ho
      exact ⟨b, List.mem_cons_self _ _, rfl⟩
    | cons a rest =>
      rw [hr] at ho
      simp only [resample_step] at ho
      split_ifs at ho with hb
      · rcases List.mem_cons.mp ho with h | h
        · subst h
          exact ⟨b, List.mem_cons_self _ _, hb.symm⟩
        · obtain ⟨b', hb', ht⟩ := ih o (by rw [hr]; exact List.mem_cons_of_mem a h)
          exact ⟨b', List.mem_cons_of_mem _ hb', ht⟩
      · rcases List.mem_cons.mp ho with h | h
        · subst h
          exact ⟨b, List.mem_cons_self _ _, rfl⟩
        · obtain ⟨b', hb', ht⟩ := ih o (by rw [hr]; exact h)
          exact ⟨b', List.mem_cons_of_mem _ hb', ht⟩

theorem resample_not_mem (d : Nat) (l : List Bar) (r : Nat)
    (hf : l.filter (fun b => bucket d b.t = r) = []) :
    ∀ o ∈ resample_ohlcv l d, o.t ≠ r := by
  intro o ho hor
  obtain ⟨b, hb, ht⟩ := mem_resample_bucket d l o ho
  have hnb := List.filter_eq_nil_iff.mp hf b hb
  simp only [decide_eq_true_eq] at hnb
  omega

theorem foldl_max_shift (l : List Bar) :
    ∀ a b : Int, l.foldl (fun acc x => max acc x.high) (max a b) =
      max a (l.foldl (fun acc x => max acc x.high) b) := by
  induction l with
  | nil => intro a b; rfl
  | cons x l ih =>
    intro a b
    simp only [List.foldl_cons]
    rw [max_assoc]
    exact ih a (max b x.high)

theorem foldl_min_shift (l : List Bar) :
    ∀ a b : Int, l.foldl (fun acc x => min acc x.low) (min a b) =
      min a (l.foldl (fun acc x => min acc x.low) b) := by
  induction l with
  | nil => intro a b; rfl
  | cons x l ih =>
    intro a b
    simp only [List.foldl_cons]
    rw [min_assoc]
    exact ih a (min b x.low)

theorem foldl_add_shift (l : List Bar) :
    ∀ a b : Int, l.foldl (fun acc x => acc + x.volume) (a + b) =
      a + l.foldl (fun acc x => acc + x.volume) b := by
  induction l with
  | nil => intro a b; rfl
  | cons x l ih =>
    intro a b
    simp only [List.foldl_cons]
    rw [add_assoc]
    exact ih a (b + x.volume)

theorem getLastD_cons (rest : List Bar) :
    ∀ b' x : Bar, ((b' :: rest).getLast?.getD x) = rest.getLast?.getD b' := by
  induction rest with
  | nil => intro b' x; rfl
  | cons c t ih =>
    intro b' x
    rw [List.getLast?_cons_cons, ih c x, ih c b']

theorem mergeBar_aggBar (r : Nat) (x b' : Bar) (rest : List Bar) :
    mergeBar x (aggBar r b' rest) = aggBar r x (b' :: rest) := by
  unfold mergeBar aggBar
  simp only [List.foldl_cons, getLastD_cons]
  rw [Bar.mk.injEq]
  exact ⟨rfl, rfl, (foldl_max_shift rest x.high b'.high).symm,
    (foldl_min_shift rest x.low b'.low).symm, rfl,
    (foldl_add_shift rest x.volume b'.volume).symm⟩

theorem bucketBar_eq_self {d : Nat} {b : Bar} (h : bucket d b.t = b.t) :
    bucketBar d b = b := by
  unfold bucketBar
  rw [h]

theorem resample_countP_agg (d : Nat) (hd : 0 < d) :
    ∀ (l : List Bar), ascending l → ∀ (r : Nat) (b : Bar) (rest : List Bar),
      l.filter (fun y => bucket d y.t = r) = b :: rest →
      (resample_ohlcv l d).countP (fun o => o.t = r) = 1 ∧
      aggBar r b rest ∈ resample_ohlcv l d := by
  intro l
  induction l with
  | nil => intro _ r b rest h; simp at h
  | cons x l ih =>
    intro hasc r b rest hf
    have hasc' : ascending l := hasc.of_cons
    by_cases hx : bucket d x.t = r
    · -- x itself belongs to bucket r, so it heads the filtered group
      have hfx : (x :: l).filter (fun y => bucket d y.t = r) =
          x :: l.filter (fun y => bucket d y.t = r) := by
        simp [List.filter_cons, hx]
      rw [hfx] at hf
      injection hf with hb hrest
      subst hb
      cases rest with
      | nil =>
        -- the group is the singleton x: no bar of l shares bucket r
        rw [resample_cons]
        cases hr : resample_ohlcv l d with
        | nil =>
          simp only [resample_step]
          constructor
          · simp [List.countP_cons, bucketBar, hx]
          · have hagg : aggBar r x [] = bucketBar d x := by
              unfold aggBar bucketBar
              rw [hx]
              rfl
            rw [hagg]
            exact List.mem_singleton_self _
        | cons a rest' =>
          have hne : l ≠ [] := by
            intro h
            subst h
            simp [resample_ohlcv] at hr
          obtain ⟨y, l'', hl⟩ := List.exists_cons_of_ne_nil hne
          obtain ⟨a0, rest0, hra, hat⟩ := resample_head_t d y l''
          rw [hl] at hr
          rw [hr] at hra
          injection hra with ha0 hrest0
          rw [← ha0] at hat
          have hyneq : ¬(bucket d y.t = r) := by
            have hy := List.filter_eq_nil_iff.mp hrest y
              (by rw [hl]; exact List.mem_cons_self _ _)
            simpa using hy
          have hz : (a :: rest').countP (fun o => o.t = r) = 0 := by
            rw [List.countP_eq_zero]
            intro o ho
            have ho' : o ∈ resample_ohlcv l d := by
              rw [hl, hr]
              exact ho
            have := resample_not_mem d l r hrest o ho'
            simpa using this
          have hcond : ¬(bucket d x.t = a.t) := by
            intro hcc
            apply hyneq
            omega
          simp only [resample_step]
          rw [if_neg hcond]
          constructor
          · rw [List.countP_cons, hz]
            simp [bucketBar, hx]
          · have hagg : aggBar r x [] = bucketBar d x := by
              unfold aggBar bucketBar
              rw [hx]
              rfl
            rw [hagg]
            exact List.mem_cons_self _ _
      | cons b' rest'' =>
        -- the group continues into l, whose head y shares bucket r
        have ihl := ih hasc' r b' rest'' hrest
        have hne : l ≠ [] := by
          intro h
          subst h
          simp at hrest
        obtain ⟨y, l'', hl⟩ := List.exists_cons_of_ne_nil hne
        have hb'l : b' ∈ l := by
          have : b' ∈ l.filter (fun y => bucket d y.t = r) := by
            rw [hrest]
            exact List.mem_cons_self _ _
          exact List.mem_of_mem_filter this
        have hb'bucket : bucket d b'.t = r := by
          have : b' ∈ l.filter (fun y => bucket d y.t = r) := by
            rw [hrest]
            exact List.mem_cons_self _ _
          simpa using List.of_mem_filter this
        have hxy : x.t ≤ y.t :=
          Nat.le_of_lt ((List.pairwise_cons.mp hasc).1 y
            (by rw [hl]; exact List.mem_cons_self _ _))
        have hyb' : y.t ≤ b'.t := by
          rw [hl] at hb'l hasc'
          rcases List.mem_cons.mp hb'l with h | h
          · subst h
            exact Nat.le_refl _
          · exact Nat.le_of_lt ((List.pairwise_cons.mp hasc').1 b' h)
        have hybucket : bucket d y.t = r := by
          have h1 : bucket d y.t ≤ r := by
            rw [← hb'bucket]
            exact bucket_mono d hyb'
          have h2 : r ≤ bucket d y.t := by
            rw [← hx]
            exact bucket_mono d hxy
          omega
        obtain ⟨a, t'', hra, hat⟩ := resample_head_t d y l''
        rw [resample_cons, hl, hra]
        rw [hl, hra] at ihl
        simp only [resample_step]
        rw [if_pos (by rw [hx, hat, hybucket])]
        have hcnt := ihl.1
        have har : a.t = r := by rw [hat, hybucket]
        have ht''0 : t''.countP (fun o => o.t = r) = 0 := by
          have hda : (decide (a.t = r)) = true := by simp [har]
          rw [List.countP_cons, hda, if_pos rfl] at hcnt
          omega
        have haeq : a = aggBar r b' rest'' := by
          rcases List.mem_cons.mp ihl.2 with h | h
          · exact h.symm
          · exfalso
            have hzero := List.countP_eq_zero.mp ht''0 _ h
            simp [aggBar] at hzero
        constructor
        · have hdm : (decide ((mergeBar x a).t = r)) = true := by
            show (decide (a.t = r)) = true
            simp [har]
          rw [List.countP_cons, hdm, if_pos rfl, ht''0]
        · rw [← mergeBar_aggBar, ← haeq]
          exact List.mem_cons_self _ _
    · -- x is outside bucket r: the group lives entirely in l
      have hfx : (x :: l).filter (fun y => bucket d y.t = r) =
          l.filter (fun y => bucket d y.t = r) := by
        simp [List.filter_cons, hx]
      rw [hfx] at hf
      have ihl := ih hasc' r b rest hf
      have hne : l ≠ [] := by
        intro h
        subst h
        simp at hf
      obtain ⟨y, l'', hl⟩ := List.exists_cons_of_ne_nil hne
      obtain ⟨a, t'', hra, hat⟩ := resample_head_t d y l''
      rw [resample_cons, hl, hra]
      rw [hl, hra] at ihl
      simp only [resample_step]
      split_ifs with hb
      · constructor
        · have := ihl.1
          rw [List.countP_cons] at this ⊢
          exact this
        · rcases List.mem_cons.mp ihl.2 with h | h
          · exfalso
            have hta : r = a.t := congrArg Bar.t h
            exact hx (hb.trans hta.symm)
          · exact List.mem_cons_of_mem _ h
      · constructor
        · rw [List.countP_cons]
          have hbx : (decide ((bucketBar d x).t = r)) = false := by
            simp [bucketBar, hx]
          rw [hbx]
          simpa using ihl.1
        · rcases List.mem_cons.mp ihl.2 with h | h
          · rw [h]
            exact List.mem_cons_of_mem _ (List.mem_cons_self _ _)
          · exact List.mem_cons_of_mem _ (List.mem_cons_of_mem _ h)

/-- C3: resample partitions time into right-closed, right-labeled buckets;
a bucket holding at least one source bar yields exactly one output bar with
open = first, high = max, low = min, close = last, volume = sum of its
source bars; a bucket holding none yields no output row. -/
theorem C3_resample_bucket_spec (bars : List Bar) (d : Nat) (hd : 0 < d)
    (h : ascending bars) : resample_ok bars d := by
  refine ⟨fun b _ => bucket_edge hd b.t, fun r => ⟨resample_not_mem d bars r,
    fun b rest hf => resample_countP_agg d hd bars h r b rest hf⟩⟩

/-- Witness for C3: the six-minute fixture aggregated into 2-minute
buckets. -/
theorem C3_witness : 0 < 2 ∧ ascending barsC3 ∧ resample_ok barsC3 2 :=
  ⟨by decide, by unfold ascending; decide,
   C3_resample_bucket_spec barsC3 2 (by decide) (by unfold ascending; decide)⟩

/-- C5: aggregating a bar sequence already at its native granularity
(strictly ascending timestamps aligned to the bucket duration) is the
identity transform. -/
theorem C5_resample_identity :
    ∀ (bars : List Bar) (d : Nat), 0 < d → ascending bars →
      (∀ b ∈ bars, d ∣ b.t) → resample_ohlcv bars d = bars := by
  intro bars d hd
  induction bars with
  | nil => intro _ _; rfl
  | cons b l ih =>
    intro hasc hdvd
    have hb : bucket d b.t = b.t :=
      bucket_of_dvd hd (hdvd b (List.mem_cons_self _ _))
    have hl : resample_ohlcv l d = l :=
      ih hasc.of_cons (fun x hx => hdvd x (List.mem_cons_of_mem _ hx))
    rw [resample_cons, hl]
    cases l with
    | nil =>
      show [bucketBar d b] = [b]
      rw [bucketBar_eq_self hb]
    | cons b' l'' =>
      have hne : ¬(bucket d b.t = b'.t) := by
        have hlt : b.t < b'.t :=
          (List.pairwise_cons.mp hasc).1 b' (List.mem_cons_self _ _)
        omega
      show resample_step d b (b' :: l'') = b :: b' :: l''
      simp only [resample_step]
      rw [if_neg hne, bucketBar_eq_self hb]

/-- Witness for C5: three bars at 2-minute granularity pass through
unchanged. -/
theorem C5_witness :
    0 < 2 ∧ ascending barsC5 ∧ (∀ b ∈ barsC5, 2 ∣ b.t) ∧
    resample_ohlcv barsC5 2 = barsC5 :=
  ⟨by decide, by unfold ascending; decide, by decide,
   C5_resample_identity barsC5 2 (by decide) (by unfold ascending; decide)
     (by decide)⟩

/-- C1 counterexample: with base barsC1 and timeframes [1m, 2m], both
timeframes confirm gaps, and the merged frame keeps the per-timeframe local
ids: two of its six rows carry id 1, so the ids are neither renumbered
sequentially nor unique. -/
theorem C1_counterexample :
    (detect_fvg_for_timeframes barsC1 [1, 2] 0).countP
      (fun g => g.id == 1) = 2 ∧
    (detect_fvg_for_timeframes barsC1 [1, 2] 0).length = 6 := by
  exact ⟨by decide, by decide⟩

/-- C1 (amended): the merged table returned by detect_fvg_for_timeframes
consists of exactly the per-timeframe gap records (concatenated in
timeframe order, confirmation order inside), with their locally-assigned
per-timeframe ids kept, arranged in ascending id order; every id is a
positive integer, but ids are local to one timeframe's scan and may repeat
across timeframes. -/
theorem C1_merged_frame_spec (base : List Bar) (timeframes : List Nat)
    (min_width : Int) :
    List.Perm (detect_fvg_for_timeframes base timeframes min_width)
      (timeframes.flatMap (fun tf =>
        detect_fvg (tf_frame base tf) (tf_label tf) min_width))
  ∧ List.Pairwise idLE (detect_fvg_for_timeframes base timeframes min_width)
  ∧ ∀ g ∈ detect_fvg_for_timeframes base timeframes min_width, 1 ≤ g.id := by
  refine ⟨List.perm_insertionSort idLE _, List.sorted_insertionSort idLE _, ?_⟩
  intro g hg
  have hmem : g ∈ timeframes.flatMap (fun tf =>
      detect_fvg (tf_frame base tf) (tf_label tf) min_width) :=
    (List.perm_insertionSort idLE _).subset hg
  obtain ⟨tf, _, hgtf⟩ := List.mem_flatMap.mp hmem
  obtain ⟨c, _, hid, _⟩ := of_mem_assign_ids hgtf
  exact hid

/-- C2: detect_fvg emits a bullish gap at index i exactly when
low[i] > high[i-2] with zone (bottom = high[i-2], top = low[i]), a bearish
gap exactly when high[i] < low[i-2] with zone (bottom = high[i],
top = low[i-2]), anchored at bar i with offsets i-2 and i, in confirmation
order (ascending i, bull before bear) with per-scan ids sequential
from 1. -/
theorem C2_detect_fvg_spec (bars : List Bar) (tf : String)
    (h : ascending bars) : detect_fvg_ok bars tf := by
  refine ⟨detect_fvg_id_get bars tf 0, ?_, ?_,
    pairwise_ord_assign_ids 1 _ (pairwise_ord_candidates bars tf 0)⟩
  · intro g hg
    obtain ⟨c, hc, _, hdir, htf, hca, hsi, hei, htop, hbot, _⟩ :=
      of_mem_assign_ids hg
    obtain ⟨i, hi, hci⟩ := List.mem_flatMap.mp hc
    have hi' := List.mem_range'_1.mp hi
    obtain ⟨_, hctf, hce, hcs, hcc, _, _, _, hcd⟩ := of_mem_candidates_at hci
    have hgi : g.end_index = i := hei.trans hce
    rw [hgi]
    refine ⟨hi'.1, by omega, by rw [hsi, hcs], htf.trans hctf,
      hca.trans hcc, ?_⟩
    rcases hcd with ⟨hd, hcond, ht, hb⟩ | ⟨hd, hcond, ht, hb⟩
    · exact Or.inl ⟨hdir.trans hd, hcond, htop.trans ht, hbot.trans hb⟩
    · exact Or.inr ⟨hdir.trans hd, hcond, htop.trans ht, hbot.trans hb⟩
  · intro i h2 hlen
    constructor
    · intro hcond
      obtain ⟨c, hcmem, hcdir, hcend⟩ := bull_mem_candidates_at tf hcond
      have hc : c ∈ detect_fvg_candidates bars tf 0 :=
        List.mem_flatMap.mpr ⟨i, List.mem_range'_1.mpr ⟨h2, by omega⟩, hcmem⟩
      obtain ⟨g, hg, hgdir, hgend⟩ := mem_assign_ids_of_mem _ c hc 1
      exact ⟨g, hg, hgdir.trans hcdir, hgend.trans hcend⟩
    · intro hcond
      obtain ⟨c, hcmem, hcdir, hcend⟩ := bear_mem_candidates_at tf hcond
      have hc : c ∈ detect_fvg_candidates bars tf 0 :=
        List.mem_flatMap.mpr ⟨i, List.mem_range'_1.mpr ⟨h2, by omega⟩, hcmem⟩
      obtain ⟨g, hg, hgdir, hgend⟩ := mem_assign_ids_of_mem _ c hc 1
      exact ⟨g, hg, hgdir.trans hcdir, hgend.trans hcend⟩

/-- Witness for C2 on the seven-bar sanity fixture. -/
theorem C2_witness : ascending barsC2 ∧ detect_fvg_ok barsC2 "1m" :=
  ⟨by unfold ascending; decide, C2_detect_fvg_spec barsC2 "1m"
    (by unfold ascending; decide)⟩

/-- C4: every gap returned by detect_fvg has width = top - bottom at least
min_width, and top strictly above bottom whenever min_width is positive
(in fact always). -/
theorem C4_min_width_invariant (bars : List Bar) (tf : String)
    (min_width : Int) (h : 0 ≤ min_width) :
    ∀ g ∈ detect_fvg bars tf min_width,
      g.width = g.top - g.bottom ∧ min_width ≤ g.width ∧
      (0 < min_width → g.bottom < g.top) := by
  intro g hg
  obtain ⟨c, hc, _, _, _, _, _, _, htop, hbot, hwid⟩ := of_mem_assign_ids hg
  obtain ⟨i, _, hci⟩ := List.mem_flatMap.mp hc
  obtain ⟨_, _, _, _, _, hcw, hmw, hbt, _⟩ := of_mem_candidates_at hci
  refine ⟨?_, ?_, fun _ => ?_⟩
  · rw [hwid, htop, hbot]; exact hcw
  · rw [hwid]; exact hmw
  · rw [htop, hbot]; exact hbt

/-- Witness for C4 at min_width 1 on a three-bar fixture. -/
theorem C4_witness :
    (0 : Int) ≤ 1 ∧ ∀ g ∈ detect_fvg barsC4 "1m" 1,
      g.width = g.top - g.bottom ∧ 1 ≤ g.width ∧
      ((0 : Int) < 1 → g.bottom < g.top) :=
  ⟨by decide, C4_min_width_invariant barsC4 "1m" 1 (by decide)⟩

/-- C6: the enricher's distance formula: bullish gaps measure
price - top above the gap and price - bottom otherwise; bearish gaps
measure bottom - price below the gap and top - price otherwise; a price
exactly at a bullish top gives distance 0. -/
theorem C6_distance_formula (g : FVG) (price : Int) :
    (g.direction = Direction.bull → g.top ≤ price →
      _distance g.direction g.top g.bottom price = price - g.top)
  ∧ (g.direction = Direction.bull → price < g.top →
      _distance g.direction g.top g.bottom price = price - g.bottom)
  ∧ (g.direction = Direction.bear → price ≤ g.bottom →
      _distance g.direction g.top g.bottom price = g.bottom - price)
  ∧ (g.direction = Direction.bear → g.bottom < price →
      _distance g.direction g.top g.bottom price = g.top - price)
  ∧ (g.direction = Direction.bull →
      _distance g.direction g.top g.bottom g.top = 0) := by
  refine ⟨?_, ?_, ?_, ?_, ?_⟩
  · intro hd hp
    rw [hd]
    simp only [_distance]
    split_ifs with h1 <;> omega
  · intro hd hp
    rw [hd]
    simp only [_distance]
    split_ifs with h1 <;> omega
  · intro hd hp
    rw [hd]
    simp only [_distance]
    split_ifs with h1 <;> omega
  · intro hd hp
    rw [hd]
    simp only [_distance]
    split_ifs with h1 <;> omega
  · intro hd
    rw [hd]
    simp only [_distance]
    split_ifs with h1 <;> omega

/-- Witness for C6: the concrete bullish gap gC6 at reference price equal
to its top. -/
theorem C6_witness :
    gC6.direction = Direction.bull ∧
    _distance gC6.direction gC6.top gC6.bottom gC6.top = 0 :=
  ⟨rfl, (C6_distance_formula gC6 gC6.top).2.2.2.2 rfl⟩

/-- C7 counterexample: for the bullish gap detected on barsC7
(top 2, bottom 0), the reference price 0 equals the far boundary, not the
nearer boundary top, yet the distance is 0; and the price 1 strictly inside
the zone gives a positive, not negative, distance. -/
theorem C7_counterexample :
    ∃ g ∈ detect_fvg barsC7 "1m" 0,
      g.direction = Direction.bull ∧ g.bottom < g.top ∧
      _distance g.direction g.top g.bottom g.bottom = 0 ∧
      g.bottom ≠ g.top ∧ g.bottom < 1 ∧ 1 < g.top ∧
      0 < _distance g.direction g.top g.bottom 1 := by
  decide

/-- C7 amended: for a gap zone with bottom < top, the distance is zero
exactly when the reference price equals either boundary, and negative
exactly when the price has passed entirely through the zone beyond the far
boundary (below bottom for bullish, above top for bearish). -/
theorem C7_amended_boundaries (top bottom price : Int) (h : bottom < top) :
    (_distance Direction.bull top bottom price = 0 ↔
      price = top ∨ price = bottom)
  ∧ (_distance Direction.bull top bottom price < 0 ↔ price < bottom)
  ∧ (_distance Direction.bear top bottom price = 0 ↔
      price = bottom ∨ price = top)
  ∧ (_distance Direction.bear top bottom price < 0 ↔ top < price) := by
  refine ⟨?_, ?_, ?_, ?_⟩ <;> simp only [_distance] <;>
    split_ifs with h1 <;> omega

/-- Witness for C7's amended statement at top 2, bottom 0, price 0. -/
theorem C7_witness :
    (0 : Int) < 2 ∧
    (_distance Direction.bull 2 0 0 = 0 ↔ (0 : Int) = 2 ∨ (0 : Int) = 0) :=
  ⟨by decide, (C7_amended_boundaries 2 0 0 (by decide)).1⟩

/-- C8: an empty bar table with a valid schema (datetime index, all
required OHLC columns present) yields an empty gap list, not an error. -/
theorem C8_empty_input (columns : List String) (tf : String)
    (min_width : Int)
    (h : ∀ c ∈ required_ohlc, columns.contains c = true) :
    detect_fvg_checked true columns [] tf min_width = Except.ok [] := by
  have hf : required_ohlc.filter (fun c => !(columns.contains c)) = [] := by
    rw [List.filter_eq_nil_iff]
    intro c hc
    simpa using h c hc
  unfold detect_fvg_checked _validate_ohlcv
  rw [hf]
  rfl

/-- Witness for C8 with the standard OHLCV column set. -/
theorem C8_witness :
    (∀ c ∈ required_ohlc,
      (["open", "high", "low", "close", "volume"] : List String).contains c
        = true) ∧
    detect_fvg_checked true ["open", "high", "low", "close", "volume"] []
      "1m" 0 = Except.ok [] :=
  ⟨by decide, C8_empty_input ["open", "high", "low", "close", "volume"]
    "1m" 0 (by decide)⟩

theorem label_for_eq_find (windows : List SessionWindow) (t : Nat) :
    label_for windows t =
      ((windows.find? (fun w => in_window w t)).map SessionWindow.label).getD
        "Off" := by
  induction windows with
  | nil => rfl
  | cons w ws ih =>
    by_cases hc : in_window w t
    · simp [label_for, List.find?_cons, hc]
    · simp [label_for, List.find?_cons, hc, ih]

/-- C9: the session label of a bar is the label of the first window whose
local time-of-day range contains the bar's local time, where a window with
start > end wraps past midnight (matching times at or after start or
strictly before end), and the fixed fallback label is used when no window
matches. -/
theorem C9_label_sessions (windows : List SessionWindow) (t : Nat) :
    (∀ w, windows.find? (fun w => in_window w t) = some w →
      label_for windows t = w.label)
  ∧ (windows.find? (fun w => in_window w t) = none →
      label_for windows t = "Off")
  ∧ (∀ w : SessionWindow, in_window w t = true ↔
      (if w.start ≤ w.end_ then w.start ≤ t ∧ t < w.end_
       else w.start ≤ t ∨ t < w.end_)) := by
  refine ⟨?_, ?_, ?_⟩
  · intro w hw
    rw [label_for_eq_find, hw]
    rfl
  · intro hw
    rw [label_for_eq_find, hw]
    rfl
  · intro w
    unfold in_window
    split_ifs with h1 <;> simp

/-- Witness for C9: local time 10:00 falls in the London window, the first
matching window of the default configuration. -/
theorem C9_witness :
    DEFAULT_SESSION_WINDOWS.find? (fun w => in_window w 600) =
      some ⟨"London", 180, 690⟩ ∧
    label_for DEFAULT_SESSION_WINDOWS 600 = "London" :=
  ⟨by decide,
   (C9_label_sessions DEFAULT_SESSION_WINDOWS 600).1 ⟨"London", 180, 690⟩
     (by decide)⟩

/-- C10: part_of_day depends only on the bar's hour in UTC: morning for
hours 6-11, noon for hours 12-17, evening otherwise; the tz argument of the
enricher does not influence it. -/
theorem C10_part_of_day (tz tz' : String) (t : Nat) :
    part_of_day_of_bar tz t = part_of_day_of_bar tz' t
  ∧ (6 ≤ hour_utc_of t ∧ hour_utc_of t < 12 →
      part_of_day_of_bar tz t = "morning")
  ∧ (12 ≤ hour_utc_of t ∧ hour_utc_of t < 18 →
      part_of_day_of_bar tz t = "noon")
  ∧ ((hour_utc_of t < 6 ∨ 18 ≤ hour_utc_of t) →
      part_of_day_of_bar tz t = "evening") := by
  refine ⟨rfl, ?_, ?_, ?_⟩ <;> intro hh <;>
    simp only [part_of_day_of_bar, _classify_part_of_day] <;>
    split_ifs with h1 h2 <;> first | rfl | omega

/-- Witness for C10 at 09:00 UTC (minute 540). -/
theorem C10_witness :
    (6 ≤ hour_utc_of 540 ∧ hour_utc_of 540 < 12) ∧
    part_of_day_of_bar "UTC" 540 = "morning" :=
  ⟨by decide, (C10_part_of_day "UTC" "America/New_York" 540).2.1 (by decide)⟩

end NQForecast
